import Mathlib

/-!
Shallow embedding of the password strength analyzer engine
(analyzer/analyzer.py).  Python floats are modelled as real numbers; the
pure unit-formatting function readable_time is stated polymorphically over
a linear ordered field with a floor so it can also be evaluated on
rationals.  Python strings are Lean strings; str.lower and the letter
and symbol character classes are modelled over their ASCII behaviour,
while the digit class \d is Unicode-aware in Python's re and is modelled
by the decimal-digit codepoint ranges of the Unicode database.
hashlib.sha1 is an external library; the analysis is parameterised over
it as an abstract function sha1_hex : String → String.
-/

/-- Python str.lower, modelled on its ASCII behaviour (Char.toLower). -/
def strLower (s : String) : String := String.mk (s.toList.map Char.toLower)

/-- Substring scan over character lists: the needle is a prefix of some
suffix of the hay. -/
def infixOfB (needle : List Char) : List Char → Bool
  | [] => needle.isPrefixOf []
  | a :: rest => needle.isPrefixOf (a :: rest) || infixOfB needle rest

/-- Python substring containment: needle in hay. -/
def substrOf (needle hay : String) : Bool := infixOfB needle.toList hay.toList

/-- CHARSET_SIZES entry for lowercase letters. -/
def CHARSET_SIZES_lower : ℕ := 26

/-- CHARSET_SIZES entry for uppercase letters. -/
def CHARSET_SIZES_upper : ℕ := 26

/-- CHARSET_SIZES entry for digits. -/
def CHARSET_SIZES_digits : ℕ := 10

/-- CHARSET_SIZES entry for symbols. -/
def CHARSET_SIZES_symbols : ℕ := 32

/-- re.search of the character class a-z in the password. -/
def hasLowerLetter (p : String) : Bool :=
  p.toList.any fun c => decide ('a' ≤ c ∧ c ≤ 'z')

/-- re.search of the character class A-Z in the password. -/
def hasUpperLetter (p : String) : Bool :=
  p.toList.any fun c => decide ('A' ≤ c ∧ c ≤ 'Z')

/-- The codepoint ranges of the Unicode decimal digits (category Nd),
the characters Python's Unicode-aware \d matches on str. -/
def UNICODE_DIGIT_RANGES : List (ℕ × ℕ) :=
  [(48, 57), (1632, 1641), (1776, 1785), (1984, 1993), (2406, 2415), (2534, 2543), (2662,
   2671), (2790, 2799), (2918, 2927), (3046, 3055), (3174, 3183), (3302, 3311), (3430, 3439),
   (3558, 3567), (3664, 3673), (3792, 3801), (3872, 3881), (4160, 4169), (4240, 4249), (6112,
   6121), (6160, 6169), (6470, 6479), (6608, 6617), (6784, 6793), (6800, 6809), (6992, 7001),
   (7088, 7097), (7232, 7241), (7248, 7257), (42528, 42537), (43216, 43225), (43264, 43273),
   (43472, 43481), (43504, 43513), (43600, 43609), (44016, 44025), (65296, 65305), (66720,
   66729), (68912, 68921), (69734, 69743), (69872, 69881), (69942, 69951), (70096, 70105),
   (70384, 70393), (70736, 70745), (70864, 70873), (71248, 71257), (71360, 71369), (71472,
   71481), (71904, 71913), (72016, 72025), (72784, 72793), (73040, 73049), (73120, 73129),
   (92768, 92777), (92864, 92873), (93008, 93017), (120782, 120831), (123200, 123209), (123632,
   123641), (125264, 125273), (130032, 130041)]

/-- A character of the Unicode decimal-digit class. -/
def isUnicodeDigit (c : Char) : Bool :=
  UNICODE_DIGIT_RANGES.any fun r => decide (r.1 ≤ c.toNat ∧ c.toNat ≤ r.2)

/-- re.search of the digit class in the password: \d is Unicode-aware on
str, so any Unicode decimal digit counts. -/
def hasDigitChar (p : String) : Bool :=
  p.toList.any fun c => isUnicodeDigit c

/-- The digit class as claim C2 reads it, ASCII digits only: the reading
forced by the claim's disjointness of the four classes.  Used to state
the counterexample and the ASCII restriction of the amended claim. -/
def hasAsciiDigitChar (p : String) : Bool :=
  p.toList.any fun c => decide ('0' ≤ c ∧ c ≤ '9')

/-- re.search of the negated class: any character that is not an ASCII
alphanumeric counts as a symbol. -/
def hasSymbolChar (p : String) : Bool :=
  p.toList.any fun c =>
    decide (¬ (('A' ≤ c ∧ c ≤ 'Z') ∨ ('a' ≤ c ∧ c ≤ 'z') ∨ ('0' ≤ c ∧ c ≤ '9')))

/-- charset_size of the source: sum the sizes of the character classes
present; `return size or 1` is the final floor. -/
def charset_size (password : String) : ℕ :=
  let size :=
    (if hasLowerLetter password then CHARSET_SIZES_lower else 0) +
    (if hasUpperLetter password then CHARSET_SIZES_upper else 0) +
    (if hasDigitChar password then CHARSET_SIZES_digits else 0) +
    (if hasSymbolChar password then CHARSET_SIZES_symbols else 0)
  if size = 0 then 1 else size

/-- entropy_bits of the source: length times log2 of the charset size,
zero for a degenerate charset. -/
noncomputable def entropy_bits (password : String) : ℝ :=
  let cs := charset_size password
  if cs ≤ 1 then 0 else (password.length : ℝ) * Real.logb 2 (cs : ℝ)

/-- DEFAULT_GUESSES_PER_SEC of the source. -/
noncomputable def DEFAULT_GUESSES_PER_SEC : ℝ := 1e9

/-- time_to_crack_seconds of the source: 2 to the entropy, divided by the
guess rate. -/
noncomputable def time_to_crack_seconds (entropy : ℝ) (guesses_per_second : ℝ) : ℝ :=
  (2 : ℝ) ^ entropy / guesses_per_second

/-- Zero-padding of the fractional part for the .3f format. -/
def pad3 (n : ℤ) : String :=
  let d := n.toNat
  (if d < 10 then "00" else if d < 100 then "0" else "") ++ toString d

/-- The f-string format .3f on a nonnegative value: rounding to three
decimal places.  Modelled as half-up rounding; CPython rounds the binary
float half-to-even, which agrees on every value exercised here. -/
def fmt3 {α : Type} [LinearOrderedField α] [FloorRing α] (s : α) : String :=
  let m : ℤ := ⌊s * 1000 + 1 / 2⌋
  toString (m / 1000) ++ "." ++ pad3 (m % 1000)

/-- The units table of readable_time. -/
def rtUnits : List (String × ℕ) :=
  [("years", 60 * 60 * 24 * 365), ("days", 60 * 60 * 24), ("hours", 60 * 60),
   ("minutes", 60), ("seconds", 1)]

/-- The loop of readable_time: for each unit whose size fits the remaining
seconds, emit `int(seconds // count)` of that unit and subtract. -/
def rtParts {α : Type} [LinearOrderedField α] [FloorRing α] :
    List (String × ℕ) → α → List String
  | [], _ => []
  | (name, count) :: rest, s =>
    if (count : α) ≤ s then
      (toString ⌊s / (count : α)⌋ ++ " " ++ name) ::
        rtParts rest (s - (⌊s / (count : α)⌋ : α) * (count : α))
    else rtParts rest s

/-- readable_time of the source: sub-second values are rendered with the
.3f format, larger ones through the greedy unit loop, keeping the first
two parts. -/
def readable_time {α : Type} [LinearOrderedField α] [FloorRing α] (seconds : α) : String :=
  if seconds < 1 then fmt3 seconds ++ " seconds"
  else
    let parts := rtParts rtUnits seconds
    if parts.isEmpty then "0 seconds" else String.intercalate ", " (parts.take 2)

/-- The regular expression (.)\1\1 of has_repeated_chars: a character
other than newline (re's dot does not match a newline) repeated three
times in a row, searched at every position. -/
def repAux : List Char → Bool
  | a :: b :: c :: rest =>
    (decide (a ≠ '\n') && (a == b) && (b == c)) || repAux (b :: c :: rest)
  | _ => false

/-- has_repeated_chars of the source. -/
def has_repeated_chars (password : String) : Bool := repAux password.toList

/-- The inner generator of has_sequence: every adjacent pair of the chunk
has character codes one apart, ord(chunk at j+1) - ord(chunk at j) == 1. -/
def chunkAscending (chunk : List Char) : Bool :=
  (List.range (chunk.length - 1)).all fun j =>
    decide (((chunk.getD (j + 1) 'a').toNat : ℤ) - ((chunk.getD j 'a').toNat : ℤ) = 1)

/-- has_sequence of the source: scan every window of run length (default
four) of the lowercased password for an ascending run. -/
def has_sequence (password : String) (runLength : ℕ := 4) : Bool :=
  let pwd := (strLower password).toList
  (List.range (pwd.length - (runLength - 1))).any fun i =>
    chunkAscending ((pwd.drop i).take runLength)

/-- The fixed pattern list of keyboard_pattern. -/
def KEYBOARD_PATTERNS : List String :=
  ["qwerty", "asdf", "zxcv", "1234", "4321", "password"]

/-- keyboard_pattern of the source: any fixed pattern occurring in the
lowercased password. -/
def keyboard_pattern (password : String) : Bool :=
  KEYBOARD_PATTERNS.any fun p => substrOf p (strLower password)

/-- dict_match of analyze: any wordlist entry occurring as a substring of
the lowercased password; an empty wordlist gives false. -/
def dict_match (wordlists : List String) (password : String) : Bool :=
  if wordlists.isEmpty then false
  else wordlists.any fun w => substrOf w (strLower password)

/-- common_match of analyze: the lowercased password is an exact element
of the common set; an empty set gives false. -/
def common_match (common : List String) (password : String) : Bool :=
  if common.isEmpty then false else common.contains (strLower password)

/-- breached of analyze: sha1_hex(p).lower() among the hashes of the
common-set entries, computed only when the common set is non-empty;
sha1_hex is the abstract hash parameter. -/
def breached_check (sha1_hex : String → String) (common : List String)
    (password : String) : Bool :=
  if common.isEmpty then false
  else (common.map sha1_hex).contains (strLower (sha1_hex password))

/-- WEIGHTS entry entropy. -/
noncomputable def WEIGHTS_entropy : ℝ := 0.5

/-- WEIGHTS entry length_bonus. -/
noncomputable def WEIGHTS_length_bonus : ℝ := 0.1

/-- WEIGHTS entry dictionary. -/
noncomputable def WEIGHTS_dictionary : ℝ := -0.5

/-- WEIGHTS entry patterns. -/
noncomputable def WEIGHTS_patterns : ℝ := -0.3

/-- WEIGHTS entry breach. -/
noncomputable def WEIGHTS_breach : ℝ := -1.0

/-- The score block of PasswordReport.analyze: baseline 50, entropy and
length additions, the three penalty branches, and the final clamp. -/
noncomputable def score_value (ent : ℝ) (len : ℕ)
    (dict cmn rep seq keyb brch : Bool) : ℝ :=
  let length_bonus : ℝ := if 12 ≤ len then 1.0 else if 8 ≤ len then 0.5 else 0.0
  let s1 : ℝ := 50.0 + min ent 80 / 80.0 * WEIGHTS_entropy * 100
  let s2 : ℝ := s1 + length_bonus * WEIGHTS_length_bonus * 100
  let s3 : ℝ := if dict || cmn then s2 + WEIGHTS_dictionary * 100 else s2
  let s4 : ℝ := if rep || seq || keyb then s3 + WEIGHTS_patterns * 100 else s3
  let s5 : ℝ := if brch then s4 + WEIGHTS_breach * 100 else s4
  max 0.0 (min 100.0 s5)

/-- Python round(x, 2) used for report display; modelled as half-up
rounding (CPython rounds the binary float half-to-even; no claim
exercises a tie). -/
noncomputable def round2 (x : ℝ) : ℝ := (⌊x * 100 + 1 / 2⌋ : ℝ) / 100

/-- The _rating method of PasswordReport. -/
noncomputable def rating (score : ℝ) : String :=
  if 85 ≤ score then "Excellent"
  else if 70 ≤ score then "Strong"
  else if 50 ≤ score then "Moderate"
  else if 25 ≤ score then "Weak"
  else "Very Weak"

/-- The result dictionary PasswordReport.analyze assembles. -/
structure Report where
  password : String
  length : ℕ
  charset_size : ℕ
  entropy_bits : ℝ
  time_to_crack_seconds : ℝ
  time_to_crack_readable : String
  guesses_per_second : ℝ
  dictionary_match : Bool
  common_password_match : Bool
  repeated_chars : Bool
  sequence_detected : Bool
  keyboard_pattern : Bool
  breached : Bool
  score : ℝ
  rating : String

/-- PasswordReport.analyze: derive every report field from the password,
the loaded word sets and the configured guess rate. -/
noncomputable def analyze (sha1_hex : String → String) (wordlists common : List String)
    (guesses_per_second : ℝ) (password : String) : Report :=
  let ent := entropy_bits password
  let ttc := time_to_crack_seconds ent guesses_per_second
  let score := score_value ent password.length (dict_match wordlists password)
    (common_match common password) (has_repeated_chars password)
    (has_sequence password) (keyboard_pattern password)
    (breached_check sha1_hex common password)
  { password := "<redacted>"
    length := password.length
    charset_size := charset_size password
    entropy_bits := round2 ent
    time_to_crack_seconds := ttc
    time_to_crack_readable := readable_time ttc
    guesses_per_second := guesses_per_second
    dictionary_match := dict_match wordlists password
    common_password_match := common_match common password
    repeated_chars := has_repeated_chars password
    sequence_detected := has_sequence password
    keyboard_pattern := keyboard_pattern password
    breached := breached_check sha1_hex common password
    score := round2 score
    rating := rating score }

/-- Unit table as the specification lists it, with the unit sizes written
out in seconds. -/
def specUnits : List (String × ℕ) :=
  [("years", 31536000), ("days", 86400), ("hours", 3600), ("minutes", 60), ("seconds", 1)]

/-- Greedy decomposition of a duration as the specification words it: for
each unit, the whole number of that unit in the remaining seconds, then
continue on the remainder. -/
def specDecompose {α : Type} [LinearOrderedField α] [FloorRing α] :
    List (String × ℕ) → α → List (String × ℤ)
  | [], _ => []
  | (name, count) :: rest, s =>
    (name, ⌊s / (count : α)⌋) ::
      specDecompose rest (s - (⌊s / (count : α)⌋ : α) * (count : α))

/-- The rendered parts of the specification's decomposition: non-zero
units only, each as value-space-name. -/
def specRenderParts {α : Type} [LinearOrderedField α] [FloorRing α] (s : α) : List String :=
  ((specDecompose specUnits s).filter fun pr => decide (pr.2 ≠ 0)).map
    fun pr => toString pr.2 ++ " " ++ pr.1

/-- Below codepoint 128 the Unicode decimal-digit class is exactly the
ASCII digits: every other range of the table starts at 1632 or above. -/
theorem isUnicodeDigit_ascii (c : Char) (h : c.toNat < 128) :
    isUnicodeDigit c = decide ('0' ≤ c ∧ c ≤ '9') := by
  have hall : ∀ r ∈ UNICODE_DIGIT_RANGES, r = (48, 57) ∨ 1632 ≤ r.1 := by decide
  by_cases hd : 48 ≤ c.toNat ∧ c.toNat ≤ 57
  · have h1 : isUnicodeDigit c = true :=
      List.any_eq_true.mpr ⟨(48, 57), by decide, by simpa using hd⟩
    have h2 : decide ('0' ≤ c ∧ c ≤ '9') = true := by
      simpa using (show '0' ≤ c ∧ c ≤ '9' from ⟨hd.1, hd.2⟩)
    rw [h1, h2]
  · have h1 : isUnicodeDigit c = false := by
      rw [isUnicodeDigit, List.any_eq_false]
      intro r hr
      rcases hall r hr with rfl | hge
      · simpa using hd
      · simp only [decide_eq_true_eq]
        omega
    have h2 : decide ('0' ≤ c ∧ c ≤ '9') = false := by
      simp only [decide_eq_false_iff_not]
      exact fun hc => hd ⟨hc.1, hc.2⟩
    rw [h1, h2]

/-- Two character scans agree when their predicates agree on every
character of the list. -/
theorem any_pred_congr (l : List Char) (f g : Char → Bool) (h : ∀ c ∈ l, f c = g c) :
    l.any f = l.any g := by
  induction l with
  | nil => rfl
  | cons a t ih =>
    rw [List.any_cons, List.any_cons, h a (List.mem_cons_self a t),
      ih fun c hc => h c (List.mem_cons_of_mem a hc)]

/-- Claim C2 as stated is false on a concrete input: the Arabic-Indic
digit three matches both Python's Unicode-aware digit class and the
non-alphanumeric symbol class, so charset_size returns 10 + 32 = 42,
while the claim's disjoint four-class sum (its digit class can only be
the ASCII digits) gives 32. -/
theorem charset_size_unicode_digit_cex :
    charset_size "٣" = 42 ∧
    ¬ (charset_size "٣" =
      (if ((if hasLowerLetter "٣" then 26 else 0) + (if hasUpperLetter "٣" then 26 else 0) +
            (if hasAsciiDigitChar "٣" then 10 else 0) +
            (if hasSymbolChar "٣" then 32 else 0)) = 0
       then 1
       else ((if hasLowerLetter "٣" then 26 else 0) + (if hasUpperLetter "٣" then 26 else 0) +
             (if hasAsciiDigitChar "٣" then 10 else 0) +
             (if hasSymbolChar "٣" then 32 else 0)))) :=
  ⟨by decide, by decide⟩

/-- Claim C2 amended: charset_size sums the contributions 26, 26, 10 and
32 of the character classes present, where the digit class is the
Unicode decimal digits and overlaps the symbol class on non-ASCII
digits; it is 1 when no class is detected and is therefore always at
least 1; on passwords of ASCII characters only, the four classes are
disjoint and the original ASCII-digit reading of the sum holds. -/
theorem charset_size_class_sum (p : String) :
    charset_size p =
      (if ((if hasLowerLetter p then 26 else 0) + (if hasUpperLetter p then 26 else 0) +
            (if hasDigitChar p then 10 else 0) + (if hasSymbolChar p then 32 else 0)) = 0
       then 1
       else ((if hasLowerLetter p then 26 else 0) + (if hasUpperLetter p then 26 else 0) +
             (if hasDigitChar p then 10 else 0) + (if hasSymbolChar p then 32 else 0))) ∧
    1 ≤ charset_size p ∧
    ((∀ c ∈ p.toList, c.toNat < 128) →
      charset_size p =
        (if ((if hasLowerLetter p then 26 else 0) + (if hasUpperLetter p then 26 else 0) +
              (if hasAsciiDigitChar p then 10 else 0) +
              (if hasSymbolChar p then 32 else 0)) = 0
         then 1
         else ((if hasLowerLetter p then 26 else 0) + (if hasUpperLetter p then 26 else 0) +
               (if hasAsciiDigitChar p then 10 else 0) +
               (if hasSymbolChar p then 32 else 0)))) := by
  refine ⟨rfl, ?_, ?_⟩
  · simp only [charset_size, CHARSET_SIZES_lower, CHARSET_SIZES_upper, CHARSET_SIZES_digits,
      CHARSET_SIZES_symbols]
    split_ifs <;> omega
  · intro hascii
    have hdg : hasDigitChar p = hasAsciiDigitChar p :=
      any_pred_congr p.toList _ _ fun c hc => isUnicodeDigit_ascii c (hascii c hc)
    rw [← hdg]
    rfl

/-- Witness for the ASCII conjunct of the amended claim C2 at a concrete
all-ASCII password. -/
theorem charset_size_class_sum_witness :
    (∀ c ∈ String.toList "a1", c.toNat < 128) ∧
    charset_size "a1" =
      (if ((if hasLowerLetter "a1" then 26 else 0) + (if hasUpperLetter "a1" then 26 else 0) +
            (if hasAsciiDigitChar "a1" then 10 else 0) +
            (if hasSymbolChar "a1" then 32 else 0)) = 0
       then 1
       else ((if hasLowerLetter "a1" then 26 else 0) + (if hasUpperLetter "a1" then 26 else 0) +
             (if hasAsciiDigitChar "a1" then 10 else 0) +
             (if hasSymbolChar "a1" then 32 else 0))) :=
  ⟨by decide, (charset_size_class_sum "a1").2.2 (by decide)⟩

/-- Claim C3: entropy_bits is zero for a degenerate charset and otherwise
length times log2 of the charset size; it is nonnegative for every
password and zero on the empty string. -/
theorem entropy_bits_formula :
    (∀ p : String,
      entropy_bits p =
        (if charset_size p ≤ 1 then 0 else (p.length : ℝ) * Real.logb 2 (charset_size p)) ∧
      0 ≤ entropy_bits p) ∧
    entropy_bits "" = 0 := by
  have hform : ∀ p : String, entropy_bits p =
      (if charset_size p ≤ 1 then 0 else (p.length : ℝ) * Real.logb 2 (charset_size p)) :=
    fun p => rfl
  constructor
  · intro p
    refine ⟨hform p, ?_⟩
    rw [hform p]
    split_ifs with h
    · norm_num
    · have h1 : (1 : ℝ) ≤ (charset_size p : ℝ) := by
        have : 1 ≤ charset_size p := by omega
        exact_mod_cast this
      exact mul_nonneg (Nat.cast_nonneg _) (Real.logb_nonneg (by norm_num) h1)
  · rw [hform ""]
    norm_num [show charset_size "" = 1 from by decide]

/-- Claim C8: the report never contains the raw password: its password
field is the fixed redacted placeholder, and every other field is one of
the derived values of the analysis. -/
theorem report_redacts_password (sha1_hex : String → String) (wordlists common : List String)
    (gps : ℝ) (p : String) :
    (analyze sha1_hex wordlists common gps p).password = "<redacted>" ∧
    (analyze sha1_hex wordlists common gps p).length = p.length ∧
    (analyze sha1_hex wordlists common gps p).charset_size = charset_size p ∧
    (analyze sha1_hex wordlists common gps p).entropy_bits = round2 (entropy_bits p) ∧
    (analyze sha1_hex wordlists common gps p).time_to_crack_seconds =
      time_to_crack_seconds (entropy_bits p) gps ∧
    (analyze sha1_hex wordlists common gps p).time_to_crack_readable =
      readable_time (time_to_crack_seconds (entropy_bits p) gps) ∧
    (analyze sha1_hex wordlists common gps p).guesses_per_second = gps ∧
    (analyze sha1_hex wordlists common gps p).dictionary_match = dict_match wordlists p ∧
    (analyze sha1_hex wordlists common gps p).common_password_match = common_match common p ∧
    (analyze sha1_hex wordlists common gps p).repeated_chars = has_repeated_chars p ∧
    (analyze sha1_hex wordlists common gps p).sequence_detected = has_sequence p ∧
    (analyze sha1_hex wordlists common gps p).keyboard_pattern = keyboard_pattern p ∧
    (analyze sha1_hex wordlists common gps p).breached = breached_check sha1_hex common p ∧
    (analyze sha1_hex wordlists common gps p).score =
      round2 (score_value (entropy_bits p) p.length (dict_match wordlists p)
        (common_match common p) (has_repeated_chars p) (has_sequence p)
        (keyboard_pattern p) (breached_check sha1_hex common p)) ∧
    (analyze sha1_hex wordlists common gps p).rating =
      rating (score_value (entropy_bits p) p.length (dict_match wordlists p)
        (common_match common p) (has_repeated_chars p) (has_sequence p)
        (keyboard_pattern p) (breached_check sha1_hex common p)) := by
  exact ⟨rfl, rfl, rfl, rfl, rfl, rfl, rfl, rfl, rfl, rfl, rfl, rfl, rfl, rfl, rfl⟩

/-- Claim C4: the rating label is chosen strictly by threshold with
inclusive lower bounds, highest tier first. -/
theorem rating_thresholds (s : ℝ) :
    (rating s = "Excellent" ↔ 85 ≤ s) ∧
    (rating s = "Strong" ↔ 70 ≤ s ∧ s < 85) ∧
    (rating s = "Moderate" ↔ 50 ≤ s ∧ s < 70) ∧
    (rating s = "Weak" ↔ 25 ≤ s ∧ s < 50) ∧
    (rating s = "Very Weak" ↔ s < 25) := by
  unfold rating
  split_ifs with h1 h2 h3 h4 <;> simp only [not_le] at * <;>
    refine ⟨?_, ?_, ?_, ?_, ?_⟩ <;> constructor <;> intro hh <;>
      first
        | trivial
        | exact absurd hh (by decide)
        | exact ⟨by linarith, by linarith⟩
        | linarith
        | (exfalso; obtain ⟨hha, hhb⟩ := hh; linarith)
        | (exfalso; linarith)

/-- The unit loop of readable_time agrees with the specification's greedy
decomposition: it renders exactly the non-zero whole units, largest
first. -/
theorem rtParts_eq_spec {α : Type} [LinearOrderedField α] [FloorRing α]
    (units : List (String × ℕ)) (s : α) (hs : 0 ≤ s) (hpos : ∀ u ∈ units, 0 < u.2) :
    rtParts units s =
      ((specDecompose units s).filter fun pr => decide (pr.2 ≠ 0)).map
        fun pr => toString pr.2 ++ " " ++ pr.1 := by
  induction units generalizing s with
  | nil => rfl
  | cons u rest ih =>
    obtain ⟨name, count⟩ := u
    have hc : (0 : α) < (count : α) := by
      have := hpos (name, count) (List.mem_cons_self _ _)
      exact_mod_cast this
    have hrest : ∀ u ∈ rest, 0 < u.2 := fun v hv => hpos v (List.mem_cons_of_mem _ hv)
    by_cases h : (count : α) ≤ s
    · have hv1 : 1 ≤ ⌊s / (count : α)⌋ := by
        rw [Int.le_floor]
        push_cast
        rw [le_div_iff₀ hc]
        linarith
      have hfl : (⌊s / (count : α)⌋ : α) * (count : α) ≤ s := by
        have hle : (⌊s / (count : α)⌋ : α) ≤ s / (count : α) := Int.floor_le _
        calc (⌊s / (count : α)⌋ : α) * (count : α)
            ≤ s / (count : α) * (count : α) := mul_le_mul_of_nonneg_right hle hc.le
          _ = s := div_mul_cancel₀ s (ne_of_gt hc)
      have hvne : (decide (⌊s / (count : α)⌋ ≠ 0)) = true := by
        simp only [ne_eq, decide_not, Bool.not_eq_true']
        simp only [decide_eq_false_iff_not]
        omega
      rw [rtParts, if_pos h, specDecompose]
      simp only [List.filter_cons, hvne, if_true, List.map_cons]
      exact congrArg (List.cons _) (ih _ (by linarith) hrest)
    · have hv0 : ⌊s / (count : α)⌋ = 0 := by
        rw [Int.floor_eq_zero_iff]
        exact Set.mem_Ico.mpr ⟨div_nonneg hs hc.le, by rw [div_lt_one hc]; linarith [not_le.mp h]⟩
      rw [rtParts, if_neg h, specDecompose]
      simp only [hv0, Int.cast_zero, zero_mul, sub_zero, List.filter_cons]
      rw [if_neg (by decide : ¬ ((decide (((0 : ℤ)) ≠ 0)) = true))]
      exact ih s hs hrest

/-- For at least one second, the unit loop always emits a part: the
fallback text is unreachable there. -/
theorem rtParts_units_ne_nil {α : Type} [LinearOrderedField α] [FloorRing α]
    (s : α) (h1 : 1 ≤ s) : (rtParts rtUnits s).isEmpty = false := by
  rw [rtUnits, rtParts]
  split_ifs with h
  · rfl
  · rw [rtParts]
    split_ifs with h2
    · rfl
    · rw [rtParts]
      split_ifs with h3
      · rfl
      · rw [rtParts]
        split_ifs with h4
        · rfl
        · rw [rtParts, if_pos (by push_cast; linarith)]
          rfl

/-- Claim C5: readable_time renders sub-second values with three decimal
places, and otherwise greedily decomposes the seconds into whole units
from years down to seconds, keeping at most the two largest non-zero
units joined with a comma and space; in particular half a second renders
as 0.500 seconds and ninety seconds as 1 minutes, 30 seconds. -/
theorem readable_time_formatting :
    (∀ s : ℚ, readable_time s =
      if s < 1 then fmt3 s ++ " seconds"
      else String.intercalate ", " ((specRenderParts s).take 2)) ∧
    readable_time (1 / 2 : ℚ) = "0.500 seconds" ∧
    readable_time (90 : ℚ) = "1 minutes, 30 seconds" := by
  refine ⟨fun s => ?_, ?_, ?_⟩
  · by_cases h : s < 1
    · rw [readable_time, if_pos h, if_pos h]
    · have h1 : (1 : ℚ) ≤ s := not_lt.mp h
      have hne := rtParts_units_ne_nil s h1
      rw [readable_time, if_neg h, if_neg h]
      simp only [hne, Bool.false_eq_true, if_false]
      rw [specRenderParts, ← rtParts_eq_spec specUnits s (by linarith) (by decide),
        show rtUnits = specUnits from by decide]
  · rw [readable_time, if_pos (by norm_num), fmt3]
    norm_num
    rfl
  · rw [readable_time, if_neg (by norm_num)]
    simp only [rtUnits, rtParts]
    norm_num
    rfl

/-- The repeated-run scan is true exactly when three equal consecutive
characters other than newline occur somewhere in the list. -/
theorem repAux_iff (l : List Char) :
    repAux l = true ↔ ∃ c pre post, c ≠ '\n' ∧ l = pre ++ [c, c, c] ++ post := by
  induction l with
  | nil =>
    constructor
    · intro h
      simp [repAux] at h
    · rintro ⟨c, pre, post, hc, heq⟩
      have := congrArg List.length heq
      simp [List.length_append] at this
      omega
  | cons a t ih =>
    cases t with
    | nil =>
      constructor
      · intro h
        simp [repAux] at h
      · rintro ⟨c, pre, post, hc, heq⟩
        have := congrArg List.length heq
        simp [List.length_append] at this
        omega
    | cons b t2 =>
      cases t2 with
      | nil =>
        constructor
        · intro h
          simp [repAux] at h
        · rintro ⟨c, pre, post, hc, heq⟩
          have := congrArg List.length heq
          simp [List.length_append] at this
          omega
      | cons c2 rest =>
        constructor
        · intro h
          rw [repAux] at h
          simp only [Bool.or_eq_true, Bool.and_eq_true, decide_eq_true_eq, beq_iff_eq] at h
          rcases h with ⟨⟨hc, hab⟩, hbc⟩ | h
          · exact ⟨a, [], rest, hc, by simp [hab, hbc]⟩
          · obtain ⟨c, pre, post, hc, heq⟩ := ih.mp h
            exact ⟨c, a :: pre, post, hc, by simp [heq]⟩
        · rintro ⟨c, pre, post, hc, heq⟩
          rw [repAux]
          simp only [Bool.or_eq_true, Bool.and_eq_true, decide_eq_true_eq, beq_iff_eq]
          cases pre with
          | nil =>
            simp only [List.nil_append, List.cons_append, List.cons.injEq] at heq
            obtain ⟨h1, h2, h3, _⟩ := heq
            exact Or.inl ⟨⟨h1 ▸ hc, h1.trans h2.symm ▸ rfl⟩, by rw [h2, h3]⟩
          | cons p pre' =>
            simp only [List.cons_append, List.cons.injEq] at heq
            obtain ⟨_, hteq⟩ := heq
            exact Or.inr (ih.mpr ⟨c, pre', post, hc, hteq⟩)

/-- Claim C6 as stated is false on a concrete input: the newline character
occurs three times consecutively in this password, yet has_repeated_chars
does not flag it, because the regular expression dot never matches a
newline. -/
theorem repeated_chars_newline_cex :
    ¬ (has_repeated_chars "\n\n\n" = true ↔
        ∃ c pre post, String.toList "\n\n\n" = pre ++ [c, c, c] ++ post) := by
  intro h
  have hrep : has_repeated_chars "\n\n\n" = true :=
    h.mpr ⟨'\n', [], [], by decide⟩
  exact absurd hrep (by decide)

/-- Claim C6 amended: has_repeated_chars is true exactly when some
character other than newline occurs three or more times consecutively;
the stated examples hold. -/
theorem repeated_chars_spec :
    (∀ p : String, has_repeated_chars p = true ↔
      ∃ c pre post, c ≠ '\n' ∧ p.toList = pre ++ [c, c, c] ++ post) ∧
    has_repeated_chars "aaab" = true ∧ has_repeated_chars "aab" = false :=
  ⟨fun p => repAux_iff p.toList, by decide, by decide⟩

/-- A list of length four is an explicit four-element list. -/
theorem list_four_of_length (l : List Char) (h : l.length = 4) :
    ∃ a b c d : Char, l = [a, b, c, d] := by
  rcases l with _ | ⟨a, _ | ⟨b, _ | ⟨c, _ | ⟨d, rest⟩⟩⟩⟩ <;> simp at h
  exact ⟨a, b, c, d, by simp [h]⟩

/-- The window check evaluates on an explicit four-element window to the
three adjacent code steps. -/
theorem chunkAscending_four (a b c d : Char) :
    chunkAscending [a, b, c, d] = true ↔
      (b.toNat = a.toNat + 1 ∧ c.toNat = b.toNat + 1 ∧ d.toNat = c.toNat + 1) := by
  show (List.range 3).all _ = true ↔ _
  rw [show List.range 3 = [0, 1, 2] from by decide]
  simp [List.getD]
  omega

/-- The window scan of has_sequence finds exactly the length-four
ascending substrings of the lowercased password. -/
theorem has_sequence_iff (p : String) :
    has_sequence p = true ↔
      ∃ l pre post, (strLower p).toList = pre ++ l ++ post ∧ l.length = 4 ∧
        List.Chain' (fun x y => y.toNat = x.toNat + 1) l := by
  rw [has_sequence]
  simp only [List.any_eq_true, List.mem_range]
  constructor
  · rintro ⟨i, hi, hasc⟩
    have hll : (strLower p).toList.length = (strLower p).length := rfl
    have hge : i + 4 ≤ (strLower p).toList.length := by omega
    have hlen4 : (((strLower p).toList.drop i).take 4).length = 4 := by
      simp [List.length_take, List.length_drop]
      omega
    obtain ⟨a, b, c, d, habcd⟩ := list_four_of_length _ hlen4
    refine ⟨((strLower p).toList.drop i).take 4, (strLower p).toList.take i,
      ((strLower p).toList.drop i).drop 4, ?_, hlen4, ?_⟩
    · rw [List.append_assoc, List.take_append_drop, List.take_append_drop]
    · rw [habcd]
      rw [habcd] at hasc
      rw [chunkAscending_four] at hasc
      simp [List.chain'_cons, hasc]
  · rintro ⟨l, pre, post, heq, hlen, hch⟩
    obtain ⟨a, b, c, d, rfl⟩ := list_four_of_length l hlen
    refine ⟨pre.length, ?_, ?_⟩
    · have hll : (strLower p).toList.length = (strLower p).length := rfl
      have := congrArg List.length heq
      simp [List.length_append] at this
      omega
    · rw [heq, List.append_assoc, List.drop_left, List.take_left']
      · rw [chunkAscending_four]
        simpa [List.chain'_cons] using hch
      · rfl

/-- Claim C7: with the default run length of four, has_sequence holds
exactly when the case-folded password contains a length-four substring
whose character codes strictly increase by one at each position; the
stated examples hold, and any password shorter than four characters
yields false. -/
theorem sequence_ascending_iff :
    has_sequence "abcd1234" = true ∧ has_sequence "dcba" = false ∧
    (∀ p : String, has_sequence p = true ↔
      ∃ l pre post, (strLower p).toList = pre ++ l ++ post ∧ l.length = 4 ∧
        List.Chain' (fun x y => y.toNat = x.toNat + 1) l) ∧
    (∀ p : String, p.length < 4 → has_sequence p = false) := by
  refine ⟨by decide, by decide, has_sequence_iff, fun p hp => ?_⟩
  have hll : (strLower p).toList.length = p.length := by
    show (p.toList.map Char.toLower).length = p.length
    rw [List.length_map]
    rfl
  rw [has_sequence]
  simp only [hll]
  rw [show p.length - (4 - 1) = 0 from by omega]
  rfl

/-- Witness for the short-password conjunct of claim C7 at a concrete
two-character password. -/
theorem sequence_ascending_iff_witness :
    String.length "ab" < 4 ∧ has_sequence "ab" = false :=
  ⟨by decide, sequence_ascending_iff.2.2.2 "ab" (by decide)⟩

/-- The score block equals the specification's formula: baseline 50, up
to 50 entropy points, a 10 or 5 length bonus, and flat penalties of 50,
30 and 100, clamped to the unit score range. -/
theorem score_value_spec (ent : ℝ) (len : ℕ) (dict cmn rep seq keyb brch : Bool) :
    score_value ent len dict cmn rep seq keyb brch =
      max 0 (min 100 (50 + min ent 80 / 80 * 50 +
        (if 12 ≤ len then (10 : ℝ) else if 8 ≤ len then 5 else 0) +
        (if dict || cmn then (-50 : ℝ) else 0) +
        (if rep || seq || keyb then (-30 : ℝ) else 0) +
        (if brch then (-100 : ℝ) else 0))) := by
  have w1 : (0.5 : ℝ) = 1 / 2 := by norm_num
  have w2 : (0.1 : ℝ) = 1 / 10 := by norm_num
  have w3 : (0.3 : ℝ) = 3 / 10 := by norm_num
  have w4 : (1.0 : ℝ) = 1 := by norm_num
  have w5 : (50.0 : ℝ) = 50 := by norm_num
  have w6 : (80.0 : ℝ) = 80 := by norm_num
  have w7 : (0.0 : ℝ) = 0 := by norm_num
  have w8 : (100.0 : ℝ) = 100 := by norm_num
  rw [score_value, WEIGHTS_entropy, WEIGHTS_length_bonus, WEIGHTS_dictionary,
    WEIGHTS_patterns, WEIGHTS_breach, w1, w2, w3, w4, w5, w6, w7, w8]
  split_ifs <;> (congr 1; congr 1) <;> ring

/-- The clamped score lies in the unit score range. -/
theorem score_value_mem (ent : ℝ) (len : ℕ) (dict cmn rep seq keyb brch : Bool) :
    0 ≤ score_value ent len dict cmn rep seq keyb brch ∧
      score_value ent len dict cmn rep seq keyb brch ≤ 100 := by
  rw [score_value_spec]
  exact ⟨le_max_left _ _, max_le (by norm_num) (min_le_left _ _)⟩

/-- Display rounding to two decimals keeps a value of the unit score
range inside that range. -/
theorem round2_bounds (x : ℝ) (h0 : 0 ≤ x) (h100 : x ≤ 100) :
    0 ≤ round2 x ∧ round2 x ≤ 100 := by
  rw [round2]
  constructor
  · apply div_nonneg _ (by norm_num : (0 : ℝ) ≤ 100)
    have h : (0 : ℤ) ≤ ⌊x * 100 + 1 / 2⌋ := by
      apply Int.le_floor.mpr
      push_cast
      linarith
    exact_mod_cast h
  · rw [div_le_iff₀ (by norm_num : (0 : ℝ) < 100)]
    have h1 : (⌊x * 100 + 1 / 2⌋ : ℝ) ≤ x * 100 + 1 / 2 := Int.floor_le _
    have h2 : (⌊x * 100 + 1 / 2⌋ : ℝ) < 10001 := by linarith
    have h3 : ⌊x * 100 + 1 / 2⌋ < 10001 := by exact_mod_cast h2
    have h4 : ⌊x * 100 + 1 / 2⌋ ≤ 10000 := by omega
    calc (⌊x * 100 + 1 / 2⌋ : ℝ) ≤ 10000 := by exact_mod_cast h4
      _ = 100 * 100 := by norm_num

/-- Claim C1: the score produced by analyze is the clamp to the unit
score range of baseline 50 plus capped entropy points, plus the length
bonus, minus the flat dictionary, pattern and breach penalties (the
reported field carries the two-decimal display rounding of that value),
and the reported score always lies between 0 and 100. -/
theorem analyze_score_formula (sha1_hex : String → String) (wordlists common : List String)
    (gps : ℝ) (p : String) :
    (analyze sha1_hex wordlists common gps p).score =
      round2 (max 0 (min 100 (50 + min (entropy_bits p) 80 / 80 * 50 +
        (if 12 ≤ p.length then (10 : ℝ) else if 8 ≤ p.length then 5 else 0) +
        (if dict_match wordlists p || common_match common p then (-50 : ℝ) else 0) +
        (if has_repeated_chars p || has_sequence p || keyboard_pattern p
          then (-30 : ℝ) else 0) +
        (if breached_check sha1_hex common p then (-100 : ℝ) else 0)))) ∧
    0 ≤ (analyze sha1_hex wordlists common gps p).score ∧
    (analyze sha1_hex wordlists common gps p).score ≤ 100 := by
  have hsc : (analyze sha1_hex wordlists common gps p).score =
      round2 (score_value (entropy_bits p) p.length (dict_match wordlists p)
        (common_match common p) (has_repeated_chars p) (has_sequence p)
        (keyboard_pattern p) (breached_check sha1_hex common p)) := rfl
  have hmem := score_value_mem (entropy_bits p) p.length (dict_match wordlists p)
    (common_match common p) (has_repeated_chars p) (has_sequence p)
    (keyboard_pattern p) (breached_check sha1_hex common p)
  have hb := round2_bounds _ hmem.1 hmem.2
  refine ⟨?_, ?_, ?_⟩
  · rw [hsc, score_value_spec]
  · rw [hsc]
    exact hb.1
  · rw [hsc]
    exact hb.2

/-- Claim C9: analysing the password from the common set flags the common
match and the breach, drives the raw score below zero so that the clamp
reports 0, and rates the password Very Weak; the hash parameter is only
assumed to produce lowercase digests, as a hex digest does. -/
theorem common_password_forced_to_zero (sha1_hex : String → String) (gps : ℝ)
    (hlow : ∀ s : String, strLower (sha1_hex s) = sha1_hex s) :
    (analyze sha1_hex [] ["password"] gps "password").common_password_match = true ∧
    (analyze sha1_hex [] ["password"] gps "password").breached = true ∧
    (analyze sha1_hex [] ["password"] gps "password").score = 0 ∧
    (analyze sha1_hex [] ["password"] gps "password").rating = "Very Weak" ∧
    50 + min (entropy_bits "password") 80 / 80 * 50 + 5 - 50 - 30 - 100 < 0 := by
  have hb : breached_check sha1_hex ["password"] "password" = true := by
    rw [breached_check]
    simp [hlow]
  have hcm : common_match ["password"] "password" = true := by decide
  have hdm : dict_match [] "password" = false := rfl
  have hrep : has_repeated_chars "password" = false := by decide
  have hseq : has_sequence "password" = false := by decide
  have hkey : keyboard_pattern "password" = true := by decide
  have hcs : charset_size "password" = 26 := by decide
  have hlen : String.length "password" = 8 := by decide
  have hent : entropy_bits "password" = 8 * Real.logb 2 26 := by
    simp only [entropy_bits, hcs, hlen]
    norm_num
  have hlogb_le : Real.logb 2 26 ≤ 10 := by
    rw [Real.logb_le_iff_le_rpow (by norm_num) (by norm_num)]
    rw [show (10 : ℝ) = ((10 : ℕ) : ℝ) from by norm_num, Real.rpow_natCast]
    norm_num
  have hlogb_lt : Real.logb 2 26 < 25 := by
    rw [Real.logb_lt_iff_lt_rpow (by norm_num) (by norm_num)]
    rw [show (25 : ℝ) = ((25 : ℕ) : ℝ) from by norm_num, Real.rpow_natCast]
    norm_num
  have hmin : min (entropy_bits "password") 80 = entropy_bits "password" := by
    apply min_eq_left
    rw [hent]
    linarith
  have hsum : 50 + min (entropy_bits "password") 80 / 80 * 50 + 5 - 50 - 30 - 100 < 0 := by
    rw [hmin, hent]
    have hr : 8 * Real.logb 2 26 / 80 * 50 = 5 * Real.logb 2 26 := by ring
    rw [hr]
    linarith
  have hscore : score_value (entropy_bits "password") 8 false true false false true true = 0 := by
    rw [score_value_spec]
    have h12 : ¬ (12 ≤ 8) := by norm_num
    have h8 : 8 ≤ 8 := le_refl 8
    rw [if_neg h12, if_pos h8]
    simp only [Bool.false_or, Bool.or_true, if_true]
    have hv : 50 + min (entropy_bits "password") 80 / 80 * 50 + 5 + (-50) + (-30) + (-100) < 0 := by
      linarith [hsum]
    rw [min_eq_right (by linarith : 50 + min (entropy_bits "password") 80 / 80 * 50 + 5 +
      (-50) + (-30) + (-100) ≤ 100)]
    exact max_eq_left (by linarith)
  have hsv : (analyze sha1_hex [] ["password"] gps "password").score =
      round2 (score_value (entropy_bits "password") (String.length "password")
        (dict_match [] "password") (common_match ["password"] "password")
        (has_repeated_chars "password") (has_sequence "password")
        (keyboard_pattern "password") (breached_check sha1_hex ["password"] "password")) := rfl
  have hrt : (analyze sha1_hex [] ["password"] gps "password").rating =
      rating (score_value (entropy_bits "password") (String.length "password")
        (dict_match [] "password") (common_match ["password"] "password")
        (has_repeated_chars "password") (has_sequence "password")
        (keyboard_pattern "password") (breached_check sha1_hex ["password"] "password")) := rfl
  have hround : round2 0 = 0 := by
    rw [round2]
    norm_num
  have hvw : rating 0 = "Very Weak" := by
    rw [rating, if_neg (by norm_num), if_neg (by norm_num), if_neg (by norm_num),
      if_neg (by norm_num)]
  refine ⟨hcm, hb, ?_, ?_, hsum⟩
  · rw [hsv, hlen, hdm, hcm, hrep, hseq, hkey, hb, hscore, hround]
  · rw [hrt, hlen, hdm, hcm, hrep, hseq, hkey, hb, hscore, hvw]

/-- Witness for claim C9 at a concrete lowercase-valued hash function and
the default guess rate. -/
theorem common_password_forced_to_zero_witness :
    (analyze (fun _ => "x") [] ["password"] 1000000000 "password").common_password_match
        = true ∧
    (analyze (fun _ => "x") [] ["password"] 1000000000 "password").breached = true ∧
    (analyze (fun _ => "x") [] ["password"] 1000000000 "password").score = 0 ∧
    (analyze (fun _ => "x") [] ["password"] 1000000000 "password").rating = "Very Weak" ∧
    50 + min (entropy_bits "password") 80 / 80 * 50 + 5 - 50 - 30 - 100 < 0 :=
  common_password_forced_to_zero (fun _ => "x") 1000000000 (fun _ => rfl)

/-- Claim C10: when every common-set entry is lowercase (as the wordlist
loader guarantees), and the hash is lowercase-valued and collision-free
between the password and the entries (the property the claim attributes
to SHA-1), a breach hit implies a common-password match. -/
theorem breached_implies_common_match (sha1_hex : String → String) (common : List String)
    (p : String)
    (hlow : ∀ s : String, strLower (sha1_hex s) = sha1_hex s)
    (hnocoll : ∀ w ∈ common, sha1_hex p = sha1_hex w → p = w)
    (hlower : ∀ w ∈ common, strLower w = w) :
    breached_check sha1_hex common p = true → common_match common p = true := by
  intro hb
  rw [breached_check] at hb
  by_cases hemp : common.isEmpty
  · rw [if_pos hemp] at hb
    exact absurd hb (by simp)
  · rw [if_neg hemp, hlow] at hb
    have hmem : sha1_hex p ∈ common.map sha1_hex := by
      simpa using hb
    obtain ⟨w, hw, hweq⟩ := List.mem_map.mp hmem
    have hpw : p = w := hnocoll w hw hweq.symm
    rw [common_match, if_neg hemp, hpw, hlower w hw]
    simpa using hw

/-- Witness for claim C10 at a concrete hash, common set and password
where the breach check fires. -/
theorem breached_implies_common_match_witness :
    common_match ["password"] "password" = true :=
  breached_implies_common_match (fun _ => "x") ["password"] "password"
    (fun _ => rfl)
    (fun w hw _ => (List.mem_singleton.mp hw).symm)
    (fun w hw => by rw [List.mem_singleton.mp hw]; decide)
    (by decide)
